import Mathlib

/-!
Formal model of the retrieval and citation utilities of the DoctorFollow
minimal demo (`src/utils.py`, `src/rag.py`).

Modelling conventions:
* Python floats are modelled as exact rationals (`ℚ`); the float literals
  involved (`0.25`, reciprocals `1/(k+rank+1)`) keep the comparisons of the
  source exact at the inputs studied here.
* Python strings are modelled as `List Char`; `str.strip()`, `str.split()`,
  slicing and `rfind` are modelled on lists.  The character classes `\s` and
  `\d` of the `re` patterns are modelled by `Char.isWhitespace` and
  `Char.isDigit`, and `re.IGNORECASE` by ASCII case folding, which agree with
  Python on the inputs considered.
* Python's insertion-ordered `dict` is modelled as an association list in
  insertion order, and the stable `sorted` as a stable insertion sort.
* Loops whose termination is part of what is being verified are modelled with
  explicit fuel, returning `none` when the fuel is exhausted.
-/

/-- Python dict update `d[idx] = d.get(idx, 0) + v`: the first binding of
`idx` is updated in place, a missing key is appended at the end (Python
dicts preserve insertion order). -/
def updOrInsert : List (ℕ × ℚ) → ℕ → ℚ → List (ℕ × ℚ)
  | [], idx, v => [(idx, v)]
  | (i, s) :: rest, idx, v =>
    if i = idx then (i, s + v) :: rest else (i, s) :: updOrInsert rest idx v

/-- One `for rank, (idx, score) in enumerate(lst)` pass of `rrf_fusion`
(src/utils.py lines 138-143): add `1 / (k + rank + 1)` to the running total
of `idx`.  `r0` is the rank of the first element of `l`. -/
def rrfAdd (k : ℕ) : List (ℕ × ℚ) → ℕ → List (ℕ × ℚ) → List (ℕ × ℚ)
  | m, _, [] => m
  | m, r0, (idx, _) :: rest =>
    rrfAdd k (updOrInsert m idx ((1 : ℚ) / (k + r0 + 1))) (r0 + 1) rest

/-- The insertion-ordered score dictionary `rrf_scores` built by
`rrf_fusion` after both passes, before sorting. -/
def rrfAssoc (bm25_scores semantic_scores : List (ℕ × ℚ)) (k : ℕ) :
    List (ℕ × ℚ) :=
  rrfAdd k (rrfAdd k [] 0 bm25_scores) 0 semantic_scores

/-- Stable insertion into a list sorted by descending score: `x` is placed
before the first entry whose score does not exceed `x`'s, so among equal
scores an entry inserted earlier (i.e. occurring earlier in the input)
stays first.  This matches Python's stable `sorted(..., reverse=True)`. -/
def insertDesc (x : ℕ × ℚ) : List (ℕ × ℚ) → List (ℕ × ℚ)
  | [] => [x]
  | y :: ys => if y.2 ≤ x.2 then x :: y :: ys else y :: insertDesc x ys

/-- Stable sort by descending score:
`sorted(rrf_scores.items(), key=lambda x: x[1], reverse=True)`. -/
def sortDesc : List (ℕ × ℚ) → List (ℕ × ℚ)
  | [] => []
  | x :: xs => insertDesc x (sortDesc xs)

/-- `rrf_fusion` (src/utils.py lines 119-148): accumulate `1/(k+rank+1)`
per id over both input lists in an insertion-ordered dict, then sort the
items by score, descending, with Python's stable sort.  The Python default
for `k` is 60. -/
def rrf_fusion (bm25_scores semantic_scores : List (ℕ × ℚ)) (k : ℕ) :
    List (ℕ × ℚ) :=
  sortDesc (rrfAssoc bm25_scores semantic_scores k)

/-- Total RRF contribution of id `j` from the list `l` whose first element
has rank `r0`: the sum of `1 / (k + r + 1)` over the ranks `r` at which `j`
occurs in `l`. -/
def rrfContribFrom (k j : ℕ) : ℕ → List (ℕ × ℚ) → ℚ
  | _, [] => 0
  | r0, (i, _) :: rest =>
    (if i = j then (1 : ℚ) / (k + r0 + 1) else 0) +
      rrfContribFrom k j (r0 + 1) rest

/-- Total RRF contribution of id `j` from one input list (ranks are
0-based, as produced by `enumerate`). -/
def rrfContrib (k j : ℕ) (l : List (ℕ × ℚ)) : ℚ := rrfContribFrom k j 0 l

/-- Total score recorded for key `j` in an association list. -/
def assocScore (m : List (ℕ × ℚ)) (j : ℕ) : ℚ :=
  ((m.filter (fun p => p.1 == j)).map Prod.snd).sum

/-- Case-insensitive character comparison (ASCII case folding, as
`re.IGNORECASE` behaves on the ASCII label `Kaynak`). -/
def charCI (a b : Char) : Bool := a.toLower == b.toLower

/-- Match the optional label alternative `(?:Kaynak|kaynak)` of the
citation pattern, case-insensitively, at the head of the input; return the
remaining input on success. -/
def matchLabel : List Char → Option (List Char)
  | c1 :: c2 :: c3 :: c4 :: c5 :: c6 :: rest =>
    if charCI c1 'k' && charCI c2 'a' && charCI c3 'y' && charCI c4 'n' &&
        charCI c5 'a' && charCI c6 'k' then some rest else none
  | _ => none

/-- Numeric value of a list of ASCII digits (Python `int(match)`). -/
def natOfDigits (l : List Char) : ℕ :=
  l.foldl (fun n c => 10 * n + (c.toNat - '0'.toNat)) 0

/-- Match `\s*(\d+)\]` at the head of the input: greedy whitespace, one or
more digits, then a closing bracket; return the captured number and the
rest of the input. -/
def matchNum (s : List Char) : Option (ℕ × List Char) :=
  let t := s.dropWhile Char.isWhitespace
  let digits := t.takeWhile Char.isDigit
  match t.dropWhile Char.isDigit with
  | ']' :: rest => if digits.isEmpty then none else some (natOfDigits digits, rest)
  | _ => none

/-- Match the body of the citation pattern
`\[(?:Kaynak|kaynak)?\s*(\d+)\]` after its opening `[`, trying the label
alternative first and then the empty alternative, as the regex engine
does. -/
def matchAfterBracket (s : List Char) : Option (ℕ × List Char) :=
  (matchLabel s >>= matchNum) <|> matchNum s

/-- Fueled scanner for
`re.findall(r'\[(?:Kaynak|kaynak)?\s*(\d+)\]', answer, re.IGNORECASE)`
(src/utils.py lines 167-168): scan left to right, collect non-overlapping
matches, resume after the end of each match, advance one character past a
position where no match starts.  Every match consumes at least one
character, so fuel `length + 1` always suffices. -/
def scanCitationsAux : ℕ → List Char → List ℕ
  | 0, _ => []
  | _ + 1, [] => []
  | fuel + 1, c :: rest =>
    if c = '[' then
      match matchAfterBracket rest with
      | some (n, rest') => n :: scanCitationsAux fuel rest'
      | none => scanCitationsAux fuel rest
    else scanCitationsAux fuel rest

/-- The list of citation numbers found in the answer, in match order, with
duplicates kept (the raw `re.findall` result, converted to integers). -/
def rawCitations (answer : List Char) : List ℕ :=
  scanCitationsAux (answer.length + 1) answer

/-- De-duplication preserving first-seen order: the `seen` loop of
`extract_citations` (src/utils.py lines 171-178). -/
def dedupFirstSeen (seen : List ℕ) : List ℕ → List ℕ
  | [] => []
  | n :: rest =>
    if n ∈ seen then dedupFirstSeen seen rest
    else n :: dedupFirstSeen (n :: seen) rest

/-- `extract_citations` (src/utils.py lines 151-179): all numbers of
bracketed citation markers, first-seen order, de-duplicated. -/
def extract_citations (answer : List Char) : List ℕ :=
  dedupFirstSeen [] (rawCitations answer)

/-- Result dictionary of `validate_citations`.  The Turkish f-string
messages of the source are abbreviated to fixed tags; no claim depends on
the message text. -/
structure ValidationResult where
  is_valid : Bool
  has_citations : Bool
  citation_ids : List ℕ
  invalid_ids : List ℕ
  message : String
deriving Repr, DecidableEq

/-- `validate_citations` (src/utils.py lines 182-222): extract the citation
ids; fail when none were found; otherwise collect the ids outside
`[1, num_sources]` as `invalid_ids` and fail when any exist; otherwise
succeed. -/
def validate_citations (answer : List Char) (num_sources : ℕ) :
    ValidationResult :=
  let citation_ids := extract_citations answer
  if citation_ids.isEmpty then
    { is_valid := false, has_citations := false, citation_ids := citation_ids,
      invalid_ids := [], message := "Kaynaklarda atif bulunamadi" }
  else
    let invalid_ids := citation_ids.filter (fun cid => cid < 1 || num_sources < cid)
    if invalid_ids.isEmpty then
      { is_valid := true, has_citations := true, citation_ids := citation_ids,
        invalid_ids := invalid_ids, message := "Gecerli" }
    else
      { is_valid := false, has_citations := true, citation_ids := citation_ids,
        invalid_ids := invalid_ids, message := "Gecersiz kaynak numaralari" }

/-- Generic splitter: cut the list at every character satisfying `p` (each
such character is a separator); pieces may be empty.  `re.split(r'[.!?]+', s)`
differs from splitting at single terminators only by extra empty pieces,
which the caller strips and discards, and `str.split()` is this splitter on
whitespace followed by discarding empty pieces. -/
def splitPieces (p : Char → Bool) : List Char → List Char → List (List Char)
  | acc, [] => [acc.reverse]
  | acc, c :: rest =>
    if p c then acc.reverse :: splitPieces p [] rest
    else splitPieces p (c :: acc) rest

/-- Sentence-terminal characters (`.`, `!`, `?`). -/
def isSentEnd (c : Char) : Bool := c == '.' || c == '!' || c == '?'

/-- Python `str.strip()`: remove leading and trailing whitespace. -/
def pyStrip (s : List Char) : List Char :=
  ((s.dropWhile Char.isWhitespace).reverse.dropWhile Char.isWhitespace).reverse

/-- Python `str.split()`: whitespace-separated words, without empties. -/
def pyWords (s : List Char) : List (List Char) :=
  (splitPieces Char.isWhitespace [] s).filter (fun w => !w.isEmpty)

/-- Fueled model of
`re.sub(r'\[(?:Kaynak|kaynak)?\s*\d+\]', '', answer, flags=re.IGNORECASE)`
(src/utils.py line 304): delete every citation marker, copy everything
else.  Fuel `length + 1` always suffices. -/
def stripCitationsAux : ℕ → List Char → List Char
  | 0, s => s
  | _ + 1, [] => []
  | fuel + 1, c :: rest =>
    if c = '[' then
      match matchAfterBracket rest with
      | some (_, rest') => stripCitationsAux fuel rest'
      | none => c :: stripCitationsAux fuel rest
    else c :: stripCitationsAux fuel rest

/-- Citation markers removed from the answer before sentence analysis. -/
def stripCitations (answer : List Char) : List Char :=
  stripCitationsAux (answer.length + 1) answer

/-- The Turkish stop-word set of `verify_answer_grounding`
(src/utils.py lines 311-314). -/
def turkishStopWords : Finset (List Char) :=
  (["ve", "veya", "ile", "bir", "bu", "şu", "o", "için", "da", "de",
    "mi", "mu", "mü", "ki", "ne", "kadar", "gibi", "daha", "çok", "az"].map
      String.toList).toFinset

/-- Content-word set of a piece of text:
`set(w.lower() for w in text.split() if len(w) > 2) - stop_words`
(src/utils.py lines 321-323; the same computation is applied to source
chunks at lines 330-331). -/
def contentWords (s : List Char) : Finset (List Char) :=
  (((pyWords s).filter (fun w => 2 < w.length)).map
      (fun w => w.map Char.toLower)).toFinset \ turkishStopWords

/-- The 25 % lexical-overlap test `overlap >= len(words) * 0.25`
(src/utils.py line 335), written over `ℕ` as `len(words) ≤ 4 * overlap`;
this is exact because `0.25 = 1/4` is represented exactly by the Python
float. -/
def overlapsChunk (words : Finset (List Char)) (chunk : List Char) : Bool :=
  words.card ≤ 4 * (words ∩ contentWords chunk).card

/-- A sentence counts as grounded when some source chunk reaches the 25 %
overlap threshold (the inner `for chunk ... break` loop,
src/utils.py lines 329-337). -/
def sentenceGrounded (source_chunks : List (List Char))
    (words : Finset (List Char)) : Bool :=
  source_chunks.any (overlapsChunk words)

/-- Result dictionary of `verify_answer_grounding`. -/
structure GroundingResult where
  grounding_ratio : ℚ
  grounded_sentences : ℕ
  total_sentences : ℕ
  is_well_grounded : Bool
deriving Repr, DecidableEq

/-- Sentence list of `verify_answer_grounding` (src/utils.py lines
304-308): strip citation markers, split at sentence terminators, strip
each piece, drop empty pieces. -/
def groundingSentences (answer : List Char) : List (List Char) :=
  ((splitPieces isSentEnd [] (stripCitations answer)).map pyStrip).filter
    (fun s => !s.isEmpty)

/-- `verify_answer_grounding` (src/utils.py lines 289-346).  A sentence
whose content-word set has fewer than 3 elements is skipped by the
grounding loop (it can never count as grounded) but is still counted in
`total_sentences`, the denominator of the ratio. -/
def verify_answer_grounding (answer : List Char)
    (source_chunks : List (List Char)) : GroundingResult :=
  let sentences := groundingSentences answer
  let grounded := sentences.countP (fun s =>
    3 ≤ (contentWords s).card && sentenceGrounded source_chunks (contentWords s))
  let total := sentences.length
  let ratio : ℚ := if total = 0 then 0 else (grounded : ℚ) / total
  { grounding_ratio := ratio, grounded_sentences := grounded,
    total_sentences := total,
    is_well_grounded := decide ((65 : ℚ) / 100 ≤ ratio) }

/-- Number of eligible sentences in the specification's sense: sentences
with at least 3 content words (those the grounding loop does not skip). -/
def eligibleSentences (answer : List Char) : ℕ :=
  (groundingSentences answer).countP (fun s => 3 ≤ (contentWords s).card)

/-- Dot product of two vectors. -/
def dotQ (a b : List ℚ) : ℚ := (List.zipWith (fun x y => x * y) a b).sum

/-- Squared Euclidean norm.  `np.linalg.norm a` is `√(normSq a)`; norms are
carried squared to stay in exact arithmetic, which is faithful here because
`‖a‖ = 0 ↔ normSq a = 0` and `‖a‖·‖b‖ = 0 ↔ normSq a * normSq b = 0`. -/
def normSq (a : List ℚ) : ℚ := dotQ a a

/-- `cosine_similarity` (src/utils.py lines 93-116): return the safe value
`0.0` when either vector has zero norm, otherwise divide the dot product
by the product of the norms.  The division is checked: a zero denominator
is a division fault (`Except.error`).  A similarity value `x / √y` is
represented symbolically by the pair `(x, y)`, and `0.0` by `(0, 1)`. -/
def cosine_similarity (a b : List ℚ) : Except String (ℚ × ℚ) :=
  if normSq a = 0 ∨ normSq b = 0 then Except.ok (0, 1)
  else if normSq a * normSq b = 0 then Except.error "ZeroDivisionError"
  else Except.ok (dotQ a b, normSq a * normSq b)

/-- The unguarded batch similarity computation of `hybrid_search`
(src/rag.py lines 180-182): each embedding row is divided by
`‖row‖ * ‖query‖` with no zero-norm guard, so a zero norm is a division
fault (numpy emits a divide warning and produces non-finite values instead
of the safe `0.0`). -/
def batchSimilarities (embeddings : List (List ℚ)) (q : List ℚ) :
    List (Except String (ℚ × ℚ)) :=
  embeddings.map (fun row =>
    if normSq row * normSq q = 0 then Except.error "ZeroDivisionError"
    else Except.ok (dotQ row q, normSq row * normSq q))

/-- `np.argsort(scores)[::-1]`: the indices `0 .. length-1` sorted by
descending score.  `np.argsort`'s order among equal scores is unspecified;
the stable order is one admissible refinement, and no theorem below
depends on the tie order of this sort. -/
def argsortDesc (scores : List ℚ) : List ℕ :=
  (sortDesc scores.enum).map Prod.fst

/-- `MedicalRAG.hybrid_search` (src/rag.py lines 153-194).  The state
fields `self.chunks`, `self.embeddings` and `self.bm25` are passed
explicitly.  `bm25_scores` and `similarities` stand for the score arrays
produced by `self.bm25.get_scores(tokenized_query)` and by the embedding
dot products; both back-ends are external libraries that return one score
per indexed chunk (`length = chunks.length`, a hypothesis of the theorems
below).  The fusion uses the Python default `k = 60`. -/
def hybrid_search (chunks : List String) (embeddings : Option (List (List ℚ)))
    (bm25 : Option (List (List String)))
    (bm25_scores similarities : List ℚ) (top_k : ℕ) : List (ℕ × String) :=
  if chunks.isEmpty || embeddings.isNone || bm25.isNone then []
  else
    let bm25_results := ((argsortDesc bm25_scores).take (2 * top_k)).map
      (fun i => (i, bm25_scores.getD i 0))
    let semantic_results := ((argsortDesc similarities).take (2 * top_k)).map
      (fun i => (i, similarities.getD i 0))
    let fused := rrf_fusion bm25_results semantic_results 60
    (fused.take top_k).map (fun p => (p.1, chunks.getD p.1 ""))

/-- Python slice `s[i:j]` with possibly negative bounds: a negative index
counts from the end, and both bounds are clamped to `[0, len s]`. -/
def pySlice (s : List Char) (i j : ℤ) : List Char :=
  let n : ℤ := s.length
  let lo := if i < 0 then max 0 (n + i) else min i n
  let hi := if j < 0 then max 0 (n + j) else min j n
  (s.take hi.toNat).drop lo.toNat

/-- Python `s.rfind(c)`: index of the last occurrence of `c`, `-1` when
absent. -/
def rfind (s : List Char) (c : Char) : ℤ :=
  match s.reverse.findIdx? (fun x => x == c) with
  | some k => (s.length : ℤ) - 1 - k
  | none => -1

/-- Fueled model of the `while start < text_length` loop of `chunk_text`
(src/utils.py lines 67-88), accumulating stripped chunks in `acc`.
Returns `none` when the fuel runs out, i.e. whenever the Python loop
performs more than `fuel` iterations — in particular for every `fuel` when
the loop does not terminate. -/
def chunkLoop (text : List Char) (size overlap : ℕ) :
    ℕ → ℤ → List (List Char) → Option (List (List Char))
  | 0, _, _ => none
  | fuel + 1, start, acc =>
    if start < (text.length : ℤ) then
      let end0 : ℤ := start + size
      let chunk0 := pySlice text start end0
      let lastPeriod :=
        max (max (rfind chunk0 '.') (rfind chunk0 '!')) (rfind chunk0 '?')
      let snap : Bool :=
        decide (end0 < (text.length : ℤ) ∧ ((size / 2 : ℕ) : ℤ) < lastPeriod)
      let chunk := if snap then chunk0.take (lastPeriod + 1).toNat else chunk0
      let endPos := if snap then start + lastPeriod + 1 else end0
      let start2 := endPos - overlap
      let acc2 := acc ++ [pyStrip chunk]
      if (text.length : ℤ) ≤ start2 + size ∧ start2 < (text.length : ℤ) then
        some (acc2 ++ [pyStrip (pySlice text start2 (text.length : ℤ))])
      else chunkLoop text size overlap fuel start2 acc2
    else some acc

/-- `chunk_text` (src/utils.py lines 47-90) with explicit loop fuel: empty
text yields `[]`; otherwise run the chunking loop from `start = 0` and drop
the chunks that became empty after stripping. -/
def chunk_text (fuel : ℕ) (text : List Char) (size overlap : ℕ) :
    Option (List (List Char)) :=
  if text.isEmpty then some []
  else (chunkLoop text size overlap fuel 0 []).map
    (List.filter (fun c => !c.isEmpty))

/-- Reassembly in the specification's sense: keep the first chunk whole,
remove the declared `overlap` characters from the front of every
subsequent chunk, and concatenate. -/
def reassemble (overlap : ℕ) : List (List Char) → List Char
  | [] => []
  | c :: cs => c ++ (cs.map (List.drop overlap)).flatten

/-- `insertDesc` just inserts its element: the result is a permutation of
`x :: l`. -/
theorem insertDesc_perm (x : ℕ × ℚ) (l : List (ℕ × ℚ)) :
    List.Perm (insertDesc x l) (x :: l) := by
  induction l with
  | nil => simp [insertDesc]
  | cons y ys ih =>
    by_cases h : y.2 ≤ x.2
    · simp [insertDesc, h]
    · simp only [insertDesc, if_neg h]
      exact (ih.cons y).trans (List.Perm.swap x y ys)

/-- The stable sort permutes its input. -/
theorem sortDesc_perm (l : List (ℕ × ℚ)) : List.Perm (sortDesc l) l := by
  induction l with
  | nil => simp [sortDesc]
  | cons x xs ih => exact (insertDesc_perm x (sortDesc xs)).trans (ih.cons x)

/-- Inserting into a list sorted by descending score keeps it sorted. -/
theorem insertDesc_pairwise (x : ℕ × ℚ) (l : List (ℕ × ℚ))
    (hl : l.Pairwise (fun a b => b.2 ≤ a.2)) :
    (insertDesc x l).Pairwise (fun a b => b.2 ≤ a.2) := by
  induction l with
  | nil => simp [insertDesc]
  | cons y ys ih =>
    rcases List.pairwise_cons.mp hl with ⟨hy, hys⟩
    by_cases h : y.2 ≤ x.2
    · rw [insertDesc, if_pos h]
      refine List.pairwise_cons.mpr ⟨?_, hl⟩
      intro z hz
      rcases List.mem_cons.mp hz with rfl | hz
      · exact h
      · exact le_trans (hy z hz) h
    · rw [insertDesc, if_neg h]
      refine List.pairwise_cons.mpr ⟨?_, ih hys⟩
      intro z hz
      rcases List.mem_cons.mp ((insertDesc_perm x ys).mem_iff.mp hz) with rfl | hz'
      · exact le_of_not_le h
      · exact hy z hz'

/-- The result of the stable sort is sorted by descending score. -/
theorem sortDesc_pairwise (l : List (ℕ × ℚ)) :
    (sortDesc l).Pairwise (fun a b => b.2 ≤ a.2) := by
  induction l with
  | nil => simp [sortDesc]
  | cons x xs ih => exact insertDesc_pairwise x (sortDesc xs) ih

/-- Stability of the insertion step: inserting `x` into a list sorted by
descending score places `x` before every entry of equal score, so the
entries of any fixed score `s` stay in order, with `x` first iff it has
score `s`. -/
theorem insertDesc_filter (x : ℕ × ℚ) (l : List (ℕ × ℚ)) (s : ℚ)
    (hl : l.Pairwise (fun a b => b.2 ≤ a.2)) :
    (insertDesc x l).filter (fun p => p.2 == s) =
      (if x.2 = s then [x] else []) ++ l.filter (fun p => p.2 == s) := by
  induction l with
  | nil => by_cases h : x.2 = s <;> simp [insertDesc, h]
  | cons y ys ih =>
    rcases List.pairwise_cons.mp hl with ⟨hy, hys⟩
    by_cases h : y.2 ≤ x.2
    · rw [insertDesc, if_pos h]
      by_cases hx : x.2 = s <;> simp [List.filter_cons, hx]
    · rw [insertDesc, if_neg h]
      by_cases hx : x.2 = s
      · have hyf : (y.2 == s) = false := by
          refine beq_eq_false_iff_ne.mpr ?_
          intro hy2
          exact h (le_of_eq (hy2.trans hx.symm))
        simp [List.filter_cons, hyf, hx, ih hys]
      · simp [List.filter_cons, hx, ih hys]

/-- Stability of the sort: for every score `s`, the entries with score `s`
appear in the sorted output in exactly their input order. -/
theorem sortDesc_filter (l : List (ℕ × ℚ)) (s : ℚ) :
    (sortDesc l).filter (fun p => p.2 == s) = l.filter (fun p => p.2 == s) := by
  induction l with
  | nil => rfl
  | cons x xs ih =>
    rw [sortDesc, insertDesc_filter x (sortDesc xs) s (sortDesc_pairwise xs), ih,
      List.filter_cons]
    by_cases hx : x.2 = s <;> simp [hx]

theorem assocScore_nil (j : ℕ) : assocScore [] j = 0 := rfl

theorem assocScore_cons (a : ℕ × ℚ) (m : List (ℕ × ℚ)) (j : ℕ) :
    assocScore (a :: m) j = (if a.1 = j then a.2 else 0) + assocScore m j := by
  by_cases h : a.1 = j <;> simp [assocScore, List.filter_cons, h]

theorem assocScore_updOrInsert (m : List (ℕ × ℚ)) (i : ℕ) (v : ℚ) (j : ℕ) :
    assocScore (updOrInsert m i v) j =
      assocScore m j + (if i = j then v else 0) := by
  induction m with
  | nil =>
    by_cases h : i = j <;>
      simp [updOrInsert, assocScore_cons, assocScore_nil, h]
  | cons a rest ih =>
    obtain ⟨b, s⟩ := a
    by_cases hbi : b = i
    · subst hbi
      rw [updOrInsert, if_pos rfl, assocScore_cons, assocScore_cons]
      by_cases hbj : b = j
      · rw [if_pos hbj, if_pos hbj, if_pos hbj]
        ring
      · simp [hbj]
    · rw [updOrInsert, if_neg hbi, assocScore_cons, assocScore_cons, ih]
      ring

theorem assocScore_rrfAdd (k : ℕ) (m : List (ℕ × ℚ)) (r0 : ℕ)
    (l : List (ℕ × ℚ)) (j : ℕ) :
    assocScore (rrfAdd k m r0 l) j =
      assocScore m j + rrfContribFrom k j r0 l := by
  induction l generalizing m r0 with
  | nil => simp [rrfAdd, rrfContribFrom]
  | cons p rest ih =>
    obtain ⟨i, sc⟩ := p
    rw [rrfAdd, ih, assocScore_updOrInsert, rrfContribFrom]
    ring

theorem mem_keys_updOrInsert (m : List (ℕ × ℚ)) (i : ℕ) (v : ℚ) (j : ℕ) :
    j ∈ (updOrInsert m i v).map Prod.fst ↔ j ∈ m.map Prod.fst ∨ j = i := by
  induction m with
  | nil => simp [updOrInsert]
  | cons a rest ih =>
    obtain ⟨b, s⟩ := a
    by_cases hbi : b = i
    · subst hbi
      rw [updOrInsert, if_pos rfl]
      simp only [List.map_cons, List.mem_cons]
      tauto
    · rw [updOrInsert, if_neg hbi]
      simp only [List.map_cons, List.mem_cons, ih]
      tauto

theorem nodup_keys_updOrInsert (m : List (ℕ × ℚ)) (i : ℕ) (v : ℚ)
    (hm : (m.map Prod.fst).Nodup) :
    ((updOrInsert m i v).map Prod.fst).Nodup := by
  induction m with
  | nil => simp [updOrInsert]
  | cons a rest ih =>
    obtain ⟨b, s⟩ := a
    rw [List.map_cons, List.nodup_cons] at hm
    by_cases hbi : b = i
    · subst hbi
      rw [updOrInsert, if_pos rfl, List.map_cons, List.nodup_cons]
      exact hm
    · rw [updOrInsert, if_neg hbi, List.map_cons, List.nodup_cons]
      refine ⟨?_, ih hm.2⟩
      intro hb
      rcases (mem_keys_updOrInsert rest i v b).mp hb with h | h
      · exact hm.1 h
      · exact hbi h

theorem mem_keys_rrfAdd (k : ℕ) (m : List (ℕ × ℚ)) (r0 : ℕ)
    (l : List (ℕ × ℚ)) (j : ℕ) :
    j ∈ (rrfAdd k m r0 l).map Prod.fst ↔
      j ∈ m.map Prod.fst ∨ j ∈ l.map Prod.fst := by
  induction l generalizing m r0 with
  | nil => simp [rrfAdd]
  | cons p rest ih =>
    obtain ⟨i, sc⟩ := p
    rw [rrfAdd, ih, mem_keys_updOrInsert]
    simp only [List.map_cons, List.mem_cons]
    tauto

theorem nodup_keys_rrfAdd (k : ℕ) (m : List (ℕ × ℚ)) (r0 : ℕ)
    (l : List (ℕ × ℚ)) (hm : (m.map Prod.fst).Nodup) :
    ((rrfAdd k m r0 l).map Prod.fst).Nodup := by
  induction l generalizing m r0 with
  | nil => simpa [rrfAdd] using hm
  | cons p rest ih =>
    obtain ⟨i, sc⟩ := p
    exact ih _ _ (nodup_keys_updOrInsert _ _ _ hm)

theorem assocScore_rrfAssoc (l1 l2 : List (ℕ × ℚ)) (k j : ℕ) :
    assocScore (rrfAssoc l1 l2 k) j = rrfContrib k j l1 + rrfContrib k j l2 := by
  rw [rrfAssoc, assocScore_rrfAdd, assocScore_rrfAdd, assocScore_nil,
    rrfContrib, rrfContrib]
  ring

theorem nodup_keys_rrfAssoc (l1 l2 : List (ℕ × ℚ)) (k : ℕ) :
    ((rrfAssoc l1 l2 k).map Prod.fst).Nodup :=
  nodup_keys_rrfAdd _ _ _ _ (nodup_keys_rrfAdd _ _ _ _ (by simp))

theorem mem_keys_rrfAssoc (l1 l2 : List (ℕ × ℚ)) (k : ℕ) (j : ℕ) :
    j ∈ (rrfAssoc l1 l2 k).map Prod.fst ↔
      j ∈ l1.map Prod.fst ∨ j ∈ l2.map Prod.fst := by
  rw [rrfAssoc, mem_keys_rrfAdd, mem_keys_rrfAdd]
  simp only [List.map_nil, List.not_mem_nil, false_or]

theorem assocScore_eq_zero (m : List (ℕ × ℚ)) (j : ℕ)
    (h : j ∉ m.map Prod.fst) : assocScore m j = 0 := by
  induction m with
  | nil => rfl
  | cons a rest ih =>
    rw [List.map_cons, List.mem_cons] at h
    push_neg at h
    rw [assocScore_cons, if_neg (fun hh => h.1 hh.symm), ih h.2, zero_add]

/-- In an association list with distinct keys, every member's value is the
total score of its key. -/
theorem snd_eq_assocScore (m : List (ℕ × ℚ)) (p : ℕ × ℚ)
    (hm : (m.map Prod.fst).Nodup) (hp : p ∈ m) : p.2 = assocScore m p.1 := by
  induction m with
  | nil => cases hp
  | cons a rest ih =>
    rw [List.map_cons, List.nodup_cons] at hm
    rcases List.mem_cons.mp hp with rfl | hp'
    · rw [assocScore_cons, if_pos rfl, assocScore_eq_zero rest p.1 hm.1, add_zero]
    · have hne : ¬ a.1 = p.1 := by
        intro he
        exact hm.1 (by rw [he]; exact List.mem_map_of_mem Prod.fst hp')
      rw [assocScore_cons, if_neg hne, ih hm.2 hp', zero_add]

theorem mem_dedupFirstSeen (seen l : List ℕ) (m : ℕ) :
    m ∈ dedupFirstSeen seen l ↔ m ∈ l ∧ m ∉ seen := by
  induction l generalizing seen with
  | nil => simp [dedupFirstSeen]
  | cons n rest ih =>
    by_cases h : n ∈ seen
    · rw [dedupFirstSeen, if_pos h, ih]
      constructor
      · rintro ⟨h1, h2⟩
        exact ⟨List.mem_cons_of_mem _ h1, h2⟩
      · rintro ⟨h1, h2⟩
        rcases List.mem_cons.mp h1 with rfl | h1'
        · exact absurd h h2
        · exact ⟨h1', h2⟩
    · rw [dedupFirstSeen, if_neg h]
      simp only [List.mem_cons, ih]
      constructor
      · rintro (rfl | ⟨h1, h2⟩)
        · exact ⟨Or.inl rfl, h⟩
        · exact ⟨Or.inr h1, fun hs => h2 (Or.inr hs)⟩
      · rintro ⟨h1, h2⟩
        by_cases hmn : m = n
        · exact Or.inl hmn
        · rcases h1 with rfl | h1'
          · exact Or.inl rfl
          · exact Or.inr ⟨h1', by simp [hmn, h2]⟩

theorem nodup_dedupFirstSeen (seen l : List ℕ) :
    (dedupFirstSeen seen l).Nodup := by
  induction l generalizing seen with
  | nil => simp [dedupFirstSeen]
  | cons n rest ih =>
    by_cases h : n ∈ seen
    · rw [dedupFirstSeen, if_pos h]
      exact ih seen
    · rw [dedupFirstSeen, if_neg h]
      refine List.nodup_cons.mpr ⟨?_, ih (n :: seen)⟩
      intro hn
      exact ((mem_dedupFirstSeen _ _ _).mp hn).2 (List.mem_cons_self n seen)

theorem dedupFirstSeen_sublist (seen l : List ℕ) :
    (dedupFirstSeen seen l).Sublist l := by
  induction l generalizing seen with
  | nil => simp [dedupFirstSeen]
  | cons n rest ih =>
    by_cases h : n ∈ seen
    · rw [dedupFirstSeen, if_pos h]
      exact (ih seen).cons n
    · rw [dedupFirstSeen, if_neg h]
      exact (ih (n :: seen)).cons₂ n

/-- The first-seen de-duplication emits values ordered by their *first*
occurrence in the input: any entry appearing earlier in the output has a
strictly smaller first-occurrence index (`List.indexOf`) in the input than
any later entry.  (A last-seen policy would violate this, e.g. on
`[2, 1, 2]`.) -/
theorem dedupFirstSeen_pairwise_indexOf (l : List ℕ) :
    ∀ seen, (dedupFirstSeen seen l).Pairwise
      (fun a b => l.indexOf a < l.indexOf b) := by
  induction l with
  | nil =>
    intro seen
    simp [dedupFirstSeen]
  | cons n rest ih =>
    intro seen
    by_cases h : n ∈ seen
    · rw [dedupFirstSeen, if_pos h]
      refine (ih seen).imp_of_mem ?_
      intro a b ha hb hlt
      have haseen := (mem_dedupFirstSeen seen rest a).mp ha
      have hbseen := (mem_dedupFirstSeen seen rest b).mp hb
      have han : n ≠ a := fun he => haseen.2 (he ▸ h)
      have hbn : n ≠ b := fun he => hbseen.2 (he ▸ h)
      rw [List.indexOf_cons_ne _ han, List.indexOf_cons_ne _ hbn]
      omega
    · rw [dedupFirstSeen, if_neg h]
      refine List.pairwise_cons.mpr ⟨?_, ?_⟩
      · intro b hb
        have hbmem := (mem_dedupFirstSeen (n :: seen) rest b).mp hb
        have hbn : n ≠ b := fun he => hbmem.2 (he ▸ List.mem_cons_self n seen)
        rw [List.indexOf_cons_self, List.indexOf_cons_ne _ hbn]
        omega
      · refine (ih (n :: seen)).imp_of_mem ?_
        intro a b ha hb hlt
        have haseen := (mem_dedupFirstSeen (n :: seen) rest a).mp ha
        have hbseen := (mem_dedupFirstSeen (n :: seen) rest b).mp hb
        have han : n ≠ a := fun he => haseen.2 (he ▸ List.mem_cons_self n seen)
        have hbn : n ≠ b := fun he => hbseen.2 (he ▸ List.mem_cons_self n seen)
        rw [List.indexOf_cons_ne _ han, List.indexOf_cons_ne _ hbn]
        omega

/-- C1 counterexample: on the spec's own example
`fuse([(5,10.0),(2,9.0)], [(2,0.9),(5,0.7)], k=60)` the two fused scores
tie at `1/61 + 1/62 = 123/3782`, and `rrf_fusion` ranks id 5 *before*
id 2 — Python's stable descending sort keeps the dict insertion order
(first-seen order: 5 entered on the BM25 pass before 2), it does not break
ties by ascending id as claimed. -/
theorem rrf_fusion_tie_example :
    rrf_fusion [(5, 10), (2, 9)] [(2, (9 : ℚ)/10), (5, 7/10)] 60 =
      [(5, 123/3782), (2, 123/3782)] := by
  norm_num [rrf_fusion, rrfAssoc, rrfAdd, updOrInsert, sortDesc, insertDesc]

/-- C1 (amended): `rrf_fusion` output is sorted by non-increasing fused
score, and ids with equal fused scores appear in the order of the score
dictionary, i.e. in first-seen order (first appearance scanning the BM25
list, then the semantic list) — not in ascending id order. -/
theorem rrf_fusion_tie_break (l1 l2 : List (ℕ × ℚ)) (k : ℕ) :
    ((rrf_fusion l1 l2 k).Pairwise (fun a b => b.2 ≤ a.2)) ∧
    (∀ s : ℚ, (rrf_fusion l1 l2 k).filter (fun p => p.2 == s) =
      (rrfAssoc l1 l2 k).filter (fun p => p.2 == s)) :=
  ⟨sortDesc_pairwise _, fun s => sortDesc_filter _ s⟩

/-- C4: every pair returned by `rrf_fusion` carries as its fused score the
sum, over both input lists, of `1/(k + r + 1)` for the 0-based ranks `r` at
which its id occurs in that list; an id present in both lists gets the sum
of its two contributions, an id present in only one list gets exactly that
single contribution (the other list contributes the empty sum `0`). -/
theorem rrf_fusion_score (l1 l2 : List (ℕ × ℚ)) (k : ℕ) (p : ℕ × ℚ)
    (hp : p ∈ rrf_fusion l1 l2 k) :
    p.2 = rrfContrib k p.1 l1 + rrfContrib k p.1 l2 := by
  have hassoc : p ∈ rrfAssoc l1 l2 k := (sortDesc_perm _).mem_iff.mp hp
  rw [snd_eq_assocScore _ p (nodup_keys_rrfAssoc l1 l2 k) hassoc,
    assocScore_rrfAssoc]

/-- Witness for C4 at the concrete input of the spec's example: id 5 sits
at rank 0 of the BM25 list and rank 1 of the semantic list, so its fused
score is `1/61 + 1/62 = 123/3782`. -/
theorem rrf_fusion_score_witness :
    (5, (123 : ℚ)/3782) ∈ rrf_fusion [(5, 10), (2, 9)] [(2, (9 : ℚ)/10), (5, 7/10)] 60 ∧
    (123 : ℚ)/3782 =
      rrfContrib 60 5 [(5, 10), (2, 9)] +
        rrfContrib 60 5 [(2, (9 : ℚ)/10), (5, 7/10)] := by
  have hm : (5, (123 : ℚ)/3782) ∈
      rrf_fusion [(5, 10), (2, 9)] [(2, (9 : ℚ)/10), (5, 7/10)] 60 := by
    have e : rrf_fusion [(5, 10), (2, 9)] [(2, (9 : ℚ)/10), (5, 7/10)] 60 =
        [(5, 123/3782), (2, 123/3782)] := by
      norm_num [rrf_fusion, rrfAssoc, rrfAdd, updOrInsert, sortDesc, insertDesc]
    rw [e]
    exact List.mem_cons_self _ _
  exact ⟨hm, rrf_fusion_score _ _ _ _ hm⟩

/-- C2: `validate_citations` reports `is_valid = true` iff at least one
citation id was extracted and every extracted id lies in the closed range
`[1, num_sources]`; and `invalid_ids` holds exactly the extracted ids that
fall outside that range. -/
theorem validate_citations_spec (answer : List Char) (n : ℕ) :
    ((validate_citations answer n).is_valid = true ↔
      (extract_citations answer ≠ [] ∧
        ∀ cid ∈ extract_citations answer, 1 ≤ cid ∧ cid ≤ n)) ∧
    (∀ cid, cid ∈ (validate_citations answer n).invalid_ids ↔
      (cid ∈ extract_citations answer ∧ (cid < 1 ∨ n < cid))) := by
  have hval : validate_citations answer n =
      if (extract_citations answer).isEmpty then
        { is_valid := false, has_citations := false,
          citation_ids := extract_citations answer, invalid_ids := [],
          message := "Kaynaklarda atif bulunamadi" }
      else if ((extract_citations answer).filter
          (fun cid => cid < 1 || n < cid)).isEmpty then
        { is_valid := true, has_citations := true,
          citation_ids := extract_citations answer,
          invalid_ids := (extract_citations answer).filter
            (fun cid => cid < 1 || n < cid),
          message := "Gecerli" }
      else
        { is_valid := false, has_citations := true,
          citation_ids := extract_citations answer,
          invalid_ids := (extract_citations answer).filter
            (fun cid => cid < 1 || n < cid),
          message := "Gecersiz kaynak numaralari" } := rfl
  rw [hval]
  by_cases h1 : (extract_citations answer).isEmpty
  · have h' : extract_citations answer = [] := List.isEmpty_iff.mp h1
    rw [if_pos h1]
    constructor
    · simp [h']
    · intro cid
      simp [h']
  · have hne : extract_citations answer ≠ [] :=
      fun hh => h1 (List.isEmpty_iff.mpr hh)
    rw [if_neg h1]
    by_cases h2 : ((extract_citations answer).filter
        (fun cid => cid < 1 || n < cid)).isEmpty
    · have hfil := List.filter_eq_nil_iff.mp (List.isEmpty_iff.mp h2)
      rw [if_pos h2]
      constructor
      · simp only [true_iff]
        refine ⟨hne, fun cid hcid => ?_⟩
        have hc := hfil cid hcid
        simp only [Bool.or_eq_true, decide_eq_true_eq, not_or] at hc
        omega
      · intro cid
        simp only [List.mem_filter, Bool.or_eq_true, decide_eq_true_eq]
    · rw [if_neg h2]
      have hfne : (extract_citations answer).filter
          (fun cid => cid < 1 || n < cid) ≠ [] :=
        fun hh => h2 (List.isEmpty_iff.mpr hh)
      obtain ⟨cid, hcid⟩ := List.exists_mem_of_ne_nil _ hfne
      have hmem := List.mem_filter.mp hcid
      have hout : cid < 1 ∨ n < cid := by
        have hb := hmem.2
        simp only [Bool.or_eq_true, decide_eq_true_eq] at hb
        exact hb
      constructor
      · have hnot : ¬ (extract_citations answer ≠ [] ∧
            ∀ c ∈ extract_citations answer, 1 ≤ c ∧ c ≤ n) := by
          rintro ⟨-, hall⟩
          have h3 := hall cid hmem.1
          omega
        simp [hnot]
      · intro c
        simp only [List.mem_filter, Bool.or_eq_true, decide_eq_true_eq]

/-- C9: `extract_citations` returns the numeric ids of the bracketed
citation markers found by the scanner, de-duplicated in first-seen order:
no duplicates, a subsequence of the raw match list with exactly the raw
matches as members, and ordered by strictly increasing first-occurrence
index in the raw match list — which, together with `Nodup` and the
membership equality, uniquely determines the output as the first-seen
de-duplication.  On the spec's example all three marker shapes, including
the case-insensitive `[Kaynak 3]` label form and the repeated `[2][2]`,
are extracted as `[1, 2, 3]`; and `[2][1][2]` is extracted as `[2, 1]`
(a last-seen policy would give `[1, 2]`). -/
theorem extract_citations_spec :
    (∀ answer : List Char,
      (extract_citations answer).Nodup ∧
      (extract_citations answer).Sublist (rawCitations answer) ∧
      (∀ n, n ∈ extract_citations answer ↔ n ∈ rawCitations answer) ∧
      (extract_citations answer).Pairwise
        (fun a b => (rawCitations answer).indexOf a <
          (rawCitations answer).indexOf b)) ∧
    extract_citations ("X [1] Y [2][2] Z [Kaynak 3]".toList) = [1, 2, 3] ∧
    extract_citations ("[2][1][2]".toList) = [2, 1] := by
  refine ⟨?_, by decide, by decide⟩
  intro answer
  refine ⟨nodup_dedupFirstSeen _ _, dedupFirstSeen_sublist _ _, ?_, ?_⟩
  · intro n
    rw [extract_citations, mem_dedupFirstSeen]
    simp
  · exact dedupFirstSeen_pairwise_indexOf _ []

theorem grounding_ratio_def (answer : List Char) (chunks : List (List Char)) :
    (verify_answer_grounding answer chunks).grounding_ratio =
      if (verify_answer_grounding answer chunks).total_sentences = 0 then 0
      else ((verify_answer_grounding answer chunks).grounded_sentences : ℚ) /
        ((verify_answer_grounding answer chunks).total_sentences : ℚ) := rfl

theorem is_well_grounded_def (answer : List Char) (chunks : List (List Char)) :
    (verify_answer_grounding answer chunks).is_well_grounded =
      decide ((65 : ℚ) / 100 ≤ (verify_answer_grounding answer chunks).grounding_ratio) := rfl

/-- C3 counterexample: on the answer `"alpha beta gamma. ab."` against the
single source chunk `"alpha beta gamma"`, the first sentence is grounded
and the second (`"ab"`) is skipped as too short, so there is 1 grounded
sentence and 1 eligible sentence — yet the code reports ratio `1/2`, not
`1/1`, because `total_sentences` counts the skipped sentence in the
denominator; consequently `is_well_grounded` is `false` although
`grounded / eligible = 1 ≥ 0.65`. -/
theorem grounding_denominator_counterexample :
    (verify_answer_grounding ("alpha beta gamma. ab.".toList)
        [("alpha beta gamma".toList)]).grounded_sentences = 1 ∧
    eligibleSentences ("alpha beta gamma. ab.".toList) = 1 ∧
    (verify_answer_grounding ("alpha beta gamma. ab.".toList)
        [("alpha beta gamma".toList)]).total_sentences = 2 ∧
    (verify_answer_grounding ("alpha beta gamma. ab.".toList)
        [("alpha beta gamma".toList)]).grounding_ratio = 1/2 ∧
    (verify_answer_grounding ("alpha beta gamma. ab.".toList)
        [("alpha beta gamma".toList)]).grounding_ratio ≠
      ((verify_answer_grounding ("alpha beta gamma. ab.".toList)
        [("alpha beta gamma".toList)]).grounded_sentences : ℚ) /
        (eligibleSentences ("alpha beta gamma. ab.".toList) : ℚ) ∧
    (verify_answer_grounding ("alpha beta gamma. ab.".toList)
        [("alpha beta gamma".toList)]).is_well_grounded = false := by
  have h1 : (verify_answer_grounding ("alpha beta gamma. ab.".toList)
      [("alpha beta gamma".toList)]).grounded_sentences = 1 := by decide
  have h2 : (verify_answer_grounding ("alpha beta gamma. ab.".toList)
      [("alpha beta gamma".toList)]).total_sentences = 2 := by decide
  have he : eligibleSentences ("alpha beta gamma. ab.".toList) = 1 := by decide
  have hr : (verify_answer_grounding ("alpha beta gamma. ab.".toList)
      [("alpha beta gamma".toList)]).grounding_ratio = 1/2 := by
    rw [grounding_ratio_def, h1, h2]
    norm_num
  refine ⟨h1, he, h2, hr, ?_, ?_⟩
  · rw [hr, h1, he]
    norm_num
  · rw [is_well_grounded_def, hr]
    refine decide_eq_false ?_
    norm_num

/-- C3 (amended): the denominator of the grounding ratio is the number of
*all* non-empty sentences, not only the eligible ones: sentences with
fewer than 3 content words (after stop-word removal and dropping words of
length ≤ 2) are excluded from the grounded count but still counted in
`total_sentences`; the ratio is `grounded / total_sentences` (0 when there
are no sentences), and `is_well_grounded` holds iff the ratio is
≥ 0.65. -/
theorem verify_answer_grounding_spec (answer : List Char)
    (chunks : List (List Char)) :
    (verify_answer_grounding answer chunks).total_sentences =
      (groundingSentences answer).length ∧
    (verify_answer_grounding answer chunks).grounded_sentences =
      ((groundingSentences answer).filter
        (fun s => 3 ≤ (contentWords s).card)).countP
          (fun s => sentenceGrounded chunks (contentWords s)) ∧
    (verify_answer_grounding answer chunks).grounding_ratio =
      (if (groundingSentences answer).length = 0 then 0
       else ((verify_answer_grounding answer chunks).grounded_sentences : ℚ) /
         ((groundingSentences answer).length : ℚ)) ∧
    ((verify_answer_grounding answer chunks).is_well_grounded = true ↔
      (65 : ℚ) / 100 ≤ (verify_answer_grounding answer chunks).grounding_ratio) := by
  refine ⟨rfl, ?_, rfl, ?_⟩
  · rw [List.countP_filter]
    show (groundingSentences answer).countP _ = (groundingSentences answer).countP _
    congr 1
    funext s
    exact Bool.and_comm _ _
  · rw [is_well_grounded_def]
    exact decide_eq_true_iff

/-- C6 counterexample: the batch similarity computation inside
`hybrid_search` divides by the norms with no zero-norm guard, so for a
zero-norm embedding row it hits a division fault instead of returning the
safe value `0.0` — while the guarded `cosine_similarity` of utils.py
returns the safe `0.0` on the same vectors.  The safety claim therefore
does not extend to the batch computation of the retrieval path. -/
theorem batch_similarity_zero_norm_fault :
    batchSimilarities [[0, 0]] [1, 2] = [Except.error "ZeroDivisionError"] ∧
    cosine_similarity [0, 0] [1, 2] = Except.ok (0, 1) := by
  constructor
  · norm_num [batchSimilarities, normSq, dotQ]
  · norm_num [cosine_similarity, normSq, dotQ]

/-- C6 (amended): `cosine_similarity` (src/utils.py) never raises a
division fault — when either input vector has zero norm it returns the
defined safe value `0.0`, and on every input it returns an `ok` value;
the unguarded batch computation of `hybrid_search` is *not* covered by
this guarantee. -/
theorem cosine_similarity_safe (a b : List ℚ)
    (h : normSq a = 0 ∨ normSq b = 0) :
    cosine_similarity a b = Except.ok (0, 1) ∧
    ∀ c d : List ℚ, ∃ v, cosine_similarity c d = Except.ok v := by
  constructor
  · rw [cosine_similarity, if_pos h]
  · intro c d
    by_cases hcd : normSq c = 0 ∨ normSq d = 0
    · exact ⟨(0, 1), by rw [cosine_similarity, if_pos hcd]⟩
    · push_neg at hcd
      have hne : ¬ normSq c * normSq d = 0 := by
        intro hh
        rcases mul_eq_zero.mp hh with h1 | h1
        · exact hcd.1 h1
        · exact hcd.2 h1
      refine ⟨(dotQ c d, normSq c * normSq d), ?_⟩
      rw [cosine_similarity, if_neg (not_or.mpr hcd), if_neg hne]

/-- Witness for the amended C6 at the zero vector against `(3, 4)`. -/
theorem cosine_similarity_safe_witness :
    (normSq [0, 0] = 0 ∨ normSq ([3, 4] : List ℚ) = 0) ∧
    cosine_similarity [0, 0] [3, 4] = Except.ok (0, 1) := by
  have h : normSq ([0, 0] : List ℚ) = 0 ∨ normSq ([3, 4] : List ℚ) = 0 := by
    left
    norm_num [normSq, dotQ]
  exact ⟨h, (cosine_similarity_safe _ _ h).1⟩

/-- C5 counterexample: one chunk is indexed and the BM25 side is available
and scores it, but the embedding matrix is missing — `hybrid_search`
returns the empty list, failing the whole query, instead of returning the
BM25-only result; the same inputs with both sub-indexes present do return
the chunk. -/
theorem hybrid_search_missing_index_counterexample :
    hybrid_search ["c0"] none (some [["c0"]]) [1] [1] 5 = [] ∧
    hybrid_search ["c0"] (some [[1]]) (some [["c0"]]) [1] [1] 5 = [(0, "c0")] := by
  constructor
  · rfl
  · norm_num [hybrid_search, argsortDesc, sortDesc, insertDesc, rrf_fusion,
      rrfAssoc, rrfAdd, updOrInsert, List.enum, List.enumFrom, List.getD]

/-- C5 (amended): whenever either sub-index is unavailable (`embeddings`
or `bm25` is `None`), `hybrid_search` returns the empty list — the guard
at src/rag.py line 164 fails the whole query instead of treating the
missing signal as an empty candidate list. -/
theorem hybrid_search_missing_index (chunks : List String)
    (embeddings : Option (List (List ℚ))) (bm25 : Option (List (List String)))
    (bm25_scores similarities : List ℚ) (top_k : ℕ)
    (h : embeddings = none ∨ bm25 = none) :
    hybrid_search chunks embeddings bm25 bm25_scores similarities top_k = [] := by
  rcases h with rfl | rfl
  · simp [hybrid_search]
  · simp [hybrid_search]

/-- Witness for the amended C5: a nonempty index with missing embeddings
yields the empty result. -/
theorem hybrid_search_missing_index_witness :
    ((none : Option (List (List ℚ))) = none ∨
      (some [["c0"]] : Option (List (List String))) = none) ∧
    hybrid_search ["c0"] none (some [["c0"]]) [1] [1] 5 = [] :=
  ⟨Or.inl rfl, hybrid_search_missing_index _ _ _ _ _ _ (Or.inl rfl)⟩

/-- C10: `chunk_text` does **not** terminate for every parameter pair with
`size > overlap ≥ 0`.  On the 20-character text `aaaaaaa.aaaaaaaaaaaa`
with `size = 10`, `overlap = 8`, the window `[0,10)` snaps to the period
at index 7 (`7 > 10 // 2`), giving `end = 8` and
`start = end - overlap = 0` again: the iteration neither advances the
window start nor triggers the final-remainder branch, so the loop repeats
the same state forever and the fueled model returns `none` for every
fuel. -/
theorem chunk_text_nontermination :
    ∀ fuel : ℕ, chunk_text fuel ("aaaaaaa.aaaaaaaaaaaa".toList) 10 8 = none := by
  have key : ∀ fuel acc,
      chunkLoop ("aaaaaaa.aaaaaaaaaaaa".toList) 10 8 fuel 0 acc = none := by
    intro fuel
    induction fuel with
    | zero => intro acc; rfl
    | succ n ih =>
      intro acc
      have step : chunkLoop ("aaaaaaa.aaaaaaaaaaaa".toList) 10 8 (n + 1) 0 acc =
          chunkLoop ("aaaaaaa.aaaaaaaaaaaa".toList) 10 8 n 0
            (acc ++ ["aaaaaaa.".toList]) := rfl
      rw [step]
      exact ih _
  intro fuel
  show (chunkLoop ("aaaaaaa.aaaaaaaaaaaa".toList) 10 8 fuel 0 []).map
      (List.filter (fun c => !c.isEmpty)) = none
  rw [key fuel []]
  rfl

theorem argsortDesc_perm (scores : List ℚ) :
    List.Perm (argsortDesc scores) (List.range scores.length) := by
  have h := (sortDesc_perm scores.enum).map Prod.fst
  rw [List.enum_eq_enumFrom, List.enumFrom_map_fst, ← List.range_eq_range'] at h
  exact h

theorem mem_argsortDesc (scores : List ℚ) (i : ℕ) :
    i ∈ argsortDesc scores ↔ i < scores.length := by
  rw [(argsortDesc_perm scores).mem_iff, List.mem_range]

theorem nodup_argsortDesc (scores : List ℚ) : (argsortDesc scores).Nodup :=
  (argsortDesc_perm scores).nodup_iff.mpr (List.nodup_range _)

theorem length_argsortDesc (scores : List ℚ) :
    (argsortDesc scores).length = scores.length :=
  (argsortDesc_perm scores).length_eq.trans (List.length_range _)

theorem map_fst_pairup (idx : List ℕ) (f : ℕ → ℚ) :
    (idx.map (fun i => (i, f i))).map Prod.fst = idx := by
  induction idx with
  | nil => rfl
  | cons a t ih => simp only [List.map_cons, ih]

theorem hybrid_search_eq (chunks : List String) (e : List (List ℚ))
    (b : List (List String)) (bm25_scores similarities : List ℚ) (top_k : ℕ)
    (hch : chunks ≠ []) :
    hybrid_search chunks (some e) (some b) bm25_scores similarities top_k =
      ((rrf_fusion
          (((argsortDesc bm25_scores).take (2 * top_k)).map
            (fun i => (i, bm25_scores.getD i 0)))
          (((argsortDesc similarities).take (2 * top_k)).map
            (fun i => (i, similarities.getD i 0))) 60).take top_k).map
        (fun p => (p.1, chunks.getD p.1 "")) := by
  cases chunks with
  | nil => exact absurd rfl hch
  | cons c cs => rfl

/-- C7: with both sub-indexes present and one score per indexed chunk from
each scoring back-end, `hybrid_search` returns exactly
`min top_k (number of indexed chunks)` pairs — at most `top_k`, and one
pair per indexed chunk without padding when the index holds fewer chunks
than `top_k` — with pairwise-distinct, in-range chunk indices. -/
theorem hybrid_search_top_k (chunks : List String) (e : List (List ℚ))
    (b : List (List String)) (bm25_scores similarities : List ℚ) (top_k : ℕ)
    (hb : bm25_scores.length = chunks.length)
    (hs : similarities.length = chunks.length) :
    (hybrid_search chunks (some e) (some b) bm25_scores similarities
        top_k).length = min top_k chunks.length ∧
    ((hybrid_search chunks (some e) (some b) bm25_scores similarities
        top_k).map Prod.fst).Nodup ∧
    ∀ p ∈ hybrid_search chunks (some e) (some b) bm25_scores similarities
        top_k, p.1 < chunks.length := by
  by_cases hch : chunks = []
  · subst hch
    refine ⟨by simp [hybrid_search], by simp [hybrid_search], ?_⟩
    intro p hp
    simp [hybrid_search] at hp
  · rw [hybrid_search_eq chunks e b bm25_scores similarities top_k hch]
    set idx1 := (argsortDesc bm25_scores).take (2 * top_k) with hidx1
    set idx2 := (argsortDesc similarities).take (2 * top_k) with hidx2
    set br := idx1.map (fun i => (i, bm25_scores.getD i 0)) with hbr
    set sr := idx2.map (fun i => (i, similarities.getD i 0)) with hsr
    have hkeys1 : br.map Prod.fst = idx1 := map_fst_pairup _ _
    have hkeys2 : sr.map Prod.fst = idx2 := map_fst_pairup _ _
    have hmem1 : ∀ j ∈ idx1, j < chunks.length := by
      intro j hj
      have := (mem_argsortDesc bm25_scores j).mp (List.take_subset _ _ hj)
      omega
    have hmem2 : ∀ j ∈ idx2, j < chunks.length := by
      intro j hj
      have := (mem_argsortDesc similarities j).mp (List.take_subset _ _ hj)
      omega
    have hk_mem : ∀ j, j ∈ (rrfAssoc br sr 60).map Prod.fst ↔
        (j ∈ idx1 ∨ j ∈ idx2) := by
      intro j
      rw [mem_keys_rrfAssoc, hkeys1, hkeys2]
    have hk_nodup := nodup_keys_rrfAssoc br sr 60
    have hk_lt : ∀ j ∈ (rrfAssoc br sr 60).map Prod.fst, j < chunks.length := by
      intro j hj
      rcases (hk_mem j).mp hj with h | h
      · exact hmem1 j h
      · exact hmem2 j h
    have hflen : (rrf_fusion br sr 60).length = (rrfAssoc br sr 60).length :=
      (sortDesc_perm _).length_eq
    have halen : (rrfAssoc br sr 60).length =
        ((rrfAssoc br sr 60).map Prod.fst).length := (List.length_map _ _).symm
    have hmin : min top_k ((rrfAssoc br sr 60).map Prod.fst).length =
        min top_k chunks.length := by
      rcases le_or_lt chunks.length top_k with hnk | hnk
      · have hfull1 : idx1 = argsortDesc bm25_scores := by
          rw [hidx1]
          apply List.take_of_length_le
          rw [length_argsortDesc, hb]
          omega
        have hperm : List.Perm ((rrfAssoc br sr 60).map Prod.fst)
            (List.range chunks.length) := by
          refine (List.perm_ext_iff_of_nodup hk_nodup (List.nodup_range _)).mpr ?_
          intro j
          rw [hk_mem, List.mem_range]
          constructor
          · rintro (h | h)
            · exact hmem1 j h
            · exact hmem2 j h
          · intro hj
            left
            rw [hfull1, mem_argsortDesc, hb]
            exact hj
        rw [hperm.length_eq, List.length_range]
      · have hns : idx1.Nodup :=
          (List.take_sublist _ _).nodup (nodup_argsortDesc _)
        have hsub : idx1 ⊆ (rrfAssoc br sr 60).map Prod.fst :=
          fun j hj => (hk_mem j).mpr (Or.inl hj)
        have hlen1 : top_k ≤ idx1.length := by
          rw [hidx1, List.length_take, length_argsortDesc, hb]
          omega
        have := (List.subperm_of_subset hns hsub).length_le
        omega
    refine ⟨?_, ?_, ?_⟩
    · rw [List.length_map, List.length_take, hflen, halen, hmin]
    · have hpf : List.Perm ((rrf_fusion br sr 60).map Prod.fst)
          ((rrfAssoc br sr 60).map Prod.fst) := (sortDesc_perm _).map Prod.fst
      have hFnodup : ((rrf_fusion br sr 60).map Prod.fst).Nodup :=
        hpf.nodup_iff.mpr hk_nodup
      have e1 : (((rrf_fusion br sr 60).take top_k).map
          (fun p => (p.1, chunks.getD p.1 ""))).map Prod.fst =
          ((rrf_fusion br sr 60).take top_k).map Prod.fst := by
        rw [List.map_map]
        rfl
      rw [e1, List.map_take]
      exact (List.take_sublist _ _).nodup hFnodup
    · intro p hp
      obtain ⟨q, hq, rfl⟩ := List.mem_map.mp hp
      have hq' : q ∈ rrfAssoc br sr 60 :=
        (sortDesc_perm (rrfAssoc br sr 60)).mem_iff.mp (List.take_subset _ _ hq)
      have hk : q.1 ∈ (rrfAssoc br sr 60).map Prod.fst :=
        List.mem_map_of_mem Prod.fst hq'
      simpa using hk_lt _ hk

/-- Witness for C7: an index of 3 chunks queried with `top_k = 5` (and
both sub-indexes present, one score per chunk) returns exactly
`min 5 3 = 3` results. -/
theorem hybrid_search_top_k_witness :
    ([3, 2, 1] : List ℚ).length = (["a", "b", "c"] : List String).length ∧
    (hybrid_search ["a", "b", "c"] (some [[1]]) (some [["a"]])
        [3, 2, 1] [1, 2, 3] 5).length =
      min 5 (["a", "b", "c"] : List String).length :=
  ⟨rfl, (hybrid_search_top_k ["a", "b", "c"] [[1]] [["a"]]
    [3, 2, 1] [1, 2, 3] 5 rfl rfl).1⟩

theorem dropWhile_eq_self_of_none (p : Char → Bool) (s : List Char)
    (h : ∀ c ∈ s, p c = false) : s.dropWhile p = s := by
  cases s with
  | nil => rfl
  | cons a t =>
    rw [List.dropWhile_cons, h a (List.mem_cons_self a t)]
    simp

/-- `str.strip()` is the identity on whitespace-free text. -/
theorem pyStrip_eq_self (s : List Char) (h : ∀ c ∈ s, c.isWhitespace = false) :
    pyStrip s = s := by
  unfold pyStrip
  rw [dropWhile_eq_self_of_none _ _ h,
    dropWhile_eq_self_of_none _ _ (fun c hc => h c (List.mem_reverse.mp hc)),
    List.reverse_reverse]

/-- A Python slice with non-negative bounds is a take-then-drop. -/
theorem pySlice_eq (s : List Char) (i j : ℤ) (hi0 : 0 ≤ i) (hj : 0 ≤ j) :
    pySlice s i j = (s.take j.toNat).drop i.toNat := by
  simp only [pySlice]
  rw [if_neg (not_lt.mpr hi0), if_neg (not_lt.mpr hj)]
  have h2 : s.take (min j (s.length : ℤ)).toNat = s.take j.toNat := by
    rw [List.take_eq_take]
    omega
  rw [h2]
  by_cases hin : i ≤ (s.length : ℤ)
  · have h1 : (min i (s.length : ℤ)).toNat = i.toNat := by omega
    rw [h1]
  · push_neg at hin
    have h1 : (min i (s.length : ℤ)).toNat = s.length := by omega
    have h3 := List.length_take_le' j.toNat s
    rw [h1, List.drop_eq_nil_of_le h3, List.drop_eq_nil_of_le (by omega)]

/-- `s.rfind(c)` is `-1` or a valid index of `s`. -/
theorem rfind_bounds (s : List Char) (c : Char) :
    -1 ≤ rfind s c ∧ rfind s c < (s.length : ℤ) := by
  rcases hfi : s.reverse.findIdx? (fun x => x == c) with _ | k
  · have he : rfind s c = -1 := by
      unfold rfind
      rw [hfi]
    rw [he]
    constructor
    · exact le_refl _
    · omega
  · have he : rfind s c = (s.length : ℤ) - 1 - k := by
      unfold rfind
      rw [hfi]
    have hk : k < s.reverse.length :=
      (List.findIdx?_eq_some_iff_findIdx_eq.mp hfi).1
    rw [List.length_reverse] at hk
    rw [he]
    constructor <;> omega

theorem drop_take_append (u : List Char) (a b : ℕ) (hab : a ≤ b) :
    (u.take b).drop a ++ u.drop b = u.drop a := by
  by_cases hlen : a ≤ u.length
  · have h1 : a ≤ (u.take b).length := by
      rw [List.length_take]
      omega
    calc (u.take b).drop a ++ u.drop b
        = (u.take b ++ u.drop b).drop a := (List.drop_append_of_le_length h1).symm
      _ = u.drop a := by rw [List.take_append_drop]
  · push_neg at hlen
    have h3 := List.length_take_le' b u
    rw [List.drop_eq_nil_of_le (by omega), List.drop_eq_nil_of_le (by omega),
      List.drop_eq_nil_of_le (by omega)]
    rfl

/-- Glueing adjacent slices: `u[a:b] ++ u[b:c] = u[a:c]` for `a ≤ b ≤ c`. -/
theorem slice_glue (u : List Char) (a b c : ℕ) (hab : a ≤ b) (hbc : b ≤ c) :
    (u.take b).drop a ++ (u.take c).drop b = (u.take c).drop a := by
  have h := drop_take_append (u.take c) a b hab
  rw [List.take_take, min_eq_left hbc] at h
  exact h

/-- Stripping a slice of whitespace-free text is the identity. -/
theorem pyStrip_slice (text : List Char)
    (hws : ∀ c ∈ text, c.isWhitespace = false) (a b : ℕ) :
    pyStrip ((text.take b).drop a) = (text.take b).drop a := by
  apply pyStrip_eq_self
  intro c hc
  exact hws c ((List.take_sublist b text).subset ((List.drop_sublist a _).subset hc))

theorem reassemble_append (ov : ℕ) (acc l : List (List Char)) (h : acc ≠ []) :
    reassemble ov (acc ++ l) =
      reassemble ov acc ++ (l.map (List.drop ov)).flatten := by
  cases acc with
  | nil => exact absurd rfl h
  | cons a t =>
    rw [List.cons_append, reassemble, reassemble, List.map_append,
      List.flatten_append, List.append_assoc]

/-- Loop invariant for `chunkLoop` on whitespace-free text with
`2 * overlap ≤ size`: entering an iteration with
`start = e - overlap`, where the chunks accumulated so far reassemble to
`text[0:e]`, every completed run reassembles to the whole text with no
empty chunk.  (The first iteration enters with `acc = []` and
`e = overlap`, i.e. `start = 0`.) -/
theorem chunkLoop_reassemble (text : List Char) (size overlap : ℕ)
    (hws : ∀ c ∈ text, c.isWhitespace = false)
    (hov : overlap < size) (hov2 : 2 * overlap ≤ size) :
    ∀ fuel (e : ℤ) (acc cs : List (List Char)),
      0 ≤ e - overlap →
      ((acc = [] ∧ e = overlap) ∨
        (acc ≠ [] ∧ reassemble overlap acc = text.take e.toNat ∧
          ∀ c ∈ acc, c ≠ [])) →
      chunkLoop text size overlap fuel (e - overlap) acc = some cs →
      reassemble overlap cs = text ∧ ∀ c ∈ cs, c ≠ [] := by
  intro fuel
  induction fuel with
  | zero =>
    intro e acc cs h0 hinv hrun
    exact absurd hrun (by simp [chunkLoop])
  | succ m ih =>
    intro e acc cs h0 hinv hrun
    simp only [chunkLoop] at hrun
    by_cases hstart : e - (overlap : ℤ) < (text.length : ℤ)
    case neg =>
      rw [if_neg hstart] at hrun
      have hacc : acc = cs := Option.some.inj hrun
      subst hacc
      rcases hinv with ⟨rfl, he⟩ | ⟨hne, hre, hnil⟩
      · have hn0 : text.length = 0 := by omega
        have htext : text = [] := List.length_eq_zero.mp hn0
        subst htext
        exact ⟨rfl, by intro c hc; cases hc⟩
      · have htk : text.take e.toNat = text :=
          List.take_of_length_le (by omega)
        refine ⟨?_, hnil⟩
        rw [hre, htk]
    case pos =>
      rw [if_pos hstart] at hrun
      -- abbreviations for the window
      have hst0 : (0 : ℤ) ≤ e - overlap := h0
      have hch0 : pySlice text (e - overlap) (e - overlap + size) =
          (text.take (e - overlap + size).toNat).drop (e - overlap).toNat :=
        pySlice_eq text _ _ hst0 (by omega)
      by_cases hsnapb :
          decide (e - (overlap : ℤ) + size < (text.length : ℤ) ∧
            ((size / 2 : ℕ) : ℤ) <
              max (max (rfind (pySlice text (e - overlap) (e - overlap + size)) '.')
                  (rfind (pySlice text (e - overlap) (e - overlap + size)) '!'))
                (rfind (pySlice text (e - overlap) (e - overlap + size)) '?')) = true
      case pos =>
        rw [hsnapb, if_pos rfl, if_pos rfl] at hrun
        have hsnap := of_decide_eq_true hsnapb
        -- shorthand for the snap position
        set lp := max (max (rfind (pySlice text (e - overlap) (e - overlap + size)) '.')
            (rfind (pySlice text (e - overlap) (e - overlap + size)) '!'))
          (rfind (pySlice text (e - overlap) (e - overlap + size)) '?') with hlpdef
        have hlp_lt : lp < (pySlice text (e - overlap) (e - overlap + size)).length := by
          have b1 := rfind_bounds (pySlice text (e - overlap) (e - overlap + size)) '.'
          have b2 := rfind_bounds (pySlice text (e - overlap) (e - overlap + size)) '!'
          have b3 := rfind_bounds (pySlice text (e - overlap) (e - overlap + size)) '?'
          rw [hlpdef]
          exact max_lt (max_lt b1.2 b2.2) b3.2
        have hchlen : (pySlice text (e - overlap) (e - overlap + size)).length = size := by
          rw [hch0, List.length_drop, List.length_take]
          omega
        have hlp_pos : ((size / 2 : ℕ) : ℤ) < lp := hsnap.2
        rw [hchlen] at hlp_lt
        -- the snapped chunk is the slice text[start : start+lp+1]
        have hchunk : (pySlice text (e - overlap) (e - overlap + size)).take
            (lp + 1).toNat =
            (text.take (e - overlap + lp + 1).toNat).drop (e - overlap).toNat := by
          rw [hch0, List.take_drop, List.take_take]
          have : min ((e - overlap).toNat + (lp + 1).toNat)
              (e - overlap + size).toNat = (e - overlap + lp + 1).toNat := by
            omega
          rw [this]
        rw [hchunk] at hrun
        rw [pyStrip_slice text hws _ _] at hrun
        -- bounds for the new end position
        have hB : e - overlap < e - overlap + lp + 1 := by omega
        have hE : (overlap : ℤ) < (e - overlap + lp + 1) - (e - overlap) := by omega
        have hD : e - overlap + lp + 1 ≤ (text.length : ℤ) := by omega
        -- the appended chunk is nonempty
        have hchunk_ne : (text.take (e - overlap + lp + 1).toNat).drop
            (e - overlap).toNat ≠ [] := by
          apply List.length_pos.mp
          rw [List.length_drop, List.length_take]
          omega
        -- reassembling the accumulator extended by the chunk
        have hacc2 : reassemble overlap
            (acc ++ [(text.take (e - overlap + lp + 1).toNat).drop
              (e - overlap).toNat]) =
            text.take (e - overlap + lp + 1).toNat := by
          have hdrop : List.drop overlap
              ((text.take (e - overlap + lp + 1).toNat).drop (e - overlap).toNat) =
              (text.take (e - overlap + lp + 1).toNat).drop e.toNat := by
            rw [List.drop_drop]
            have : (e - overlap).toNat + overlap = e.toNat := by omega
            rw [this]
          rcases hinv with ⟨rfl, he⟩ | ⟨hne, hre, hnil⟩
          · have hz : (e - overlap).toNat = 0 := by omega
            rw [List.nil_append, reassemble, hz, List.drop_zero]
            simp [reassemble]
          · rw [reassemble_append _ _ _ hne, hre, List.map_cons, List.map_nil,
              List.flatten_cons, List.flatten_nil, List.append_nil, hdrop]
            have hglue := slice_glue text 0 e.toNat
              (e - overlap + lp + 1).toNat (by omega) (by omega)
            rw [List.drop_zero, List.drop_zero] at hglue
            exact hglue
        by_cases hfin : (text.length : ℤ) ≤ e - overlap + lp + 1 - overlap + size ∧
            e - overlap + lp + 1 - overlap < (text.length : ℤ)
        case pos =>
          rw [if_pos hfin] at hrun
          -- the remainder chunk
          have hrem : pySlice text (e - overlap + lp + 1 - overlap)
              (text.length : ℤ) =
              text.drop (e - overlap + lp + 1 - overlap).toNat := by
            rw [pySlice_eq text _ _ (by omega) (by omega)]
            have h1 : ((text.length : ℤ)).toNat = text.length := by omega
            rw [h1, List.take_length]
          rw [hrem] at hrun
          rw [pyStrip_eq_self _ (fun c hc =>
            hws c ((List.drop_sublist _ _).subset hc))] at hrun
          have hcs := (Option.some.inj hrun).symm
          subst hcs
          have hrem_ne : text.drop (e - overlap + lp + 1 - overlap).toNat ≠ [] := by
            apply List.length_pos.mp
            rw [List.length_drop]
            omega
          constructor
          · rw [reassemble_append _ _ _ (by simp), hacc2, List.map_cons,
              List.map_nil, List.flatten_cons, List.flatten_nil,
              List.append_nil, List.drop_drop]
            have h1 : (e - overlap + lp + 1 - overlap).toNat + overlap =
                (e - overlap + lp + 1).toNat := by omega
            rw [h1, List.take_append_drop]
          · intro c hc
            rcases List.mem_append.mp hc with hc' | hc'
            · rcases List.mem_append.mp hc' with hc'' | hc''
              · rcases hinv with ⟨rfl, -⟩ | ⟨-, -, hnil⟩
                · cases hc''
                · exact hnil c hc''
              · rcases List.mem_singleton.mp hc'' with rfl
                exact hchunk_ne
            · rcases List.mem_singleton.mp hc' with rfl
              exact hrem_ne
        case neg =>
          rw [if_neg hfin] at hrun
          refine ih (e - overlap + lp + 1)
            (acc ++ [(text.take (e - overlap + lp + 1).toNat).drop
              (e - overlap).toNat]) cs
            (by omega) (Or.inr ⟨?_, ?_, ?_⟩) ?_
          · simp
          · exact hacc2
          · intro c hc
            rcases List.mem_append.mp hc with hc' | hc'
            · rcases hinv with ⟨rfl, -⟩ | ⟨-, -, hnil⟩
              · cases hc'
              · exact hnil c hc'
            · rcases List.mem_singleton.mp hc' with rfl
              exact hchunk_ne
          · exact hrun
      case neg =>
        rw [Bool.not_eq_true] at hsnapb
        rw [hsnapb, if_neg Bool.false_ne_true, if_neg Bool.false_ne_true] at hrun
        rw [hch0] at hrun
        rw [pyStrip_slice text hws _ _] at hrun
        have hB : e - overlap < e - overlap + size := by omega
        have hE : (overlap : ℤ) < (e - overlap + size) - (e - overlap) := by omega
        have hchunk_ne : (text.take (e - overlap + size).toNat).drop
            (e - overlap).toNat ≠ [] := by
          apply List.length_pos.mp
          rw [List.length_drop, List.length_take]
          omega
        have hacc2 : reassemble overlap
            (acc ++ [(text.take (e - overlap + size).toNat).drop
              (e - overlap).toNat]) =
            text.take (e - overlap + size).toNat := by
          have hdrop : List.drop overlap
              ((text.take (e - overlap + size).toNat).drop (e - overlap).toNat) =
              (text.take (e - overlap + size).toNat).drop e.toNat := by
            rw [List.drop_drop]
            have : (e - overlap).toNat + overlap = e.toNat := by omega
            rw [this]
          rcases hinv with ⟨rfl, he⟩ | ⟨hne, hre, hnil⟩
          · have hz : (e - overlap).toNat = 0 := by omega
            rw [List.nil_append, reassemble, hz, List.drop_zero]
            simp [reassemble]
          · rw [reassemble_append _ _ _ hne, hre, List.map_cons, List.map_nil,
              List.flatten_cons, List.flatten_nil, List.append_nil, hdrop]
            have hglue := slice_glue text 0 e.toNat
              (e - overlap + size).toNat (by omega) (by omega)
            rw [List.drop_zero, List.drop_zero] at hglue
            exact hglue
        by_cases hfin : (text.length : ℤ) ≤ e - overlap + size - overlap + size ∧
            e - overlap + size - overlap < (text.length : ℤ)
        case pos =>
          rw [if_pos hfin] at hrun
          have hrem : pySlice text (e - overlap + size - overlap)
              (text.length : ℤ) =
              text.drop (e - overlap + size - overlap).toNat := by
            rw [pySlice_eq text _ _ (by omega) (by omega)]
            have h1 : ((text.length : ℤ)).toNat = text.length := by omega
            rw [h1, List.take_length]
          rw [hrem] at hrun
          rw [pyStrip_eq_self _ (fun c hc =>
            hws c ((List.drop_sublist _ _).subset hc))] at hrun
          have hcs := (Option.some.inj hrun).symm
          subst hcs
          have hrem_ne : text.drop (e - overlap + size - overlap).toNat ≠ [] := by
            apply List.length_pos.mp
            rw [List.length_drop]
            omega
          constructor
          · rw [reassemble_append _ _ _ (by simp), hacc2, List.map_cons,
              List.map_nil, List.flatten_cons, List.flatten_nil,
              List.append_nil, List.drop_drop]
            have h1 : (e - overlap + size - overlap).toNat + overlap =
                (e - overlap + size).toNat := by omega
            rw [h1, List.take_append_drop]
          · intro c hc
            rcases List.mem_append.mp hc with hc' | hc'
            · rcases List.mem_append.mp hc' with hc'' | hc''
              · rcases hinv with ⟨rfl, -⟩ | ⟨-, -, hnil⟩
                · cases hc''
                · exact hnil c hc''
              · rcases List.mem_singleton.mp hc'' with rfl
                exact hchunk_ne
            · rcases List.mem_singleton.mp hc' with rfl
              exact hrem_ne
        case neg =>
          rw [if_neg hfin] at hrun
          refine ih (e - overlap + size)
            (acc ++ [(text.take (e - overlap + size).toNat).drop
              (e - overlap).toNat]) cs
            (by omega) (Or.inr ⟨?_, ?_, ?_⟩) ?_
          · simp
          · exact hacc2
          · intro c hc
            rcases List.mem_append.mp hc with hc' | hc'
            · rcases hinv with ⟨rfl, -⟩ | ⟨-, -, hnil⟩
              · cases hc'
              · exact hnil c hc'
            · rcases List.mem_singleton.mp hc' with rfl
              exact hchunk_ne
          · exact hrun

/-- C8 counterexample: chunks are stripped of whitespace before being
returned, so boundary whitespace is lost.  For the input `"ab "` (length
3 = size) with `size = 3`, `overlap = 0`, the single produced chunk is
`"ab"`, and reassembling it does not reproduce the original text — the
trailing space is gone. -/
theorem chunk_text_strip_counterexample :
    chunk_text 10 ("ab ".toList) 3 0 = some ["ab".toList] ∧
    reassemble 0 ["ab".toList] ≠ "ab ".toList := by
  constructor
  · rfl
  · decide

/-- C8 (amended): for whitespace-free input text (so that the per-chunk
`strip()` is the identity) and parameters with `overlap < size` and
`2·overlap ≤ size` (ruling out the backward-moving windows under which the
scan duplicates text or fails to terminate, cf. the C10 analysis),
whenever the chunking loop completes, concatenating the returned chunks
while removing the declared `overlap` characters from the front of every
subsequent chunk reconstructs the original input text exactly. -/
theorem chunk_text_reassemble (fuel : ℕ) (text : List Char)
    (size overlap : ℕ) (cs : List (List Char))
    (hws : ∀ c ∈ text, c.isWhitespace = false)
    (hov : overlap < size) (hov2 : 2 * overlap ≤ size)
    (hrun : chunk_text fuel text size overlap = some cs) :
    reassemble overlap cs = text := by
  unfold chunk_text at hrun
  by_cases hempty : text.isEmpty
  · rw [if_pos hempty] at hrun
    have hcs := Option.some.inj hrun
    rw [← hcs, List.isEmpty_iff.mp hempty]
    rfl
  · rw [if_neg hempty] at hrun
    rcases Option.map_eq_some'.mp hrun with ⟨cs0, hrun0, hfil⟩
    have hrun0' : chunkLoop text size overlap fuel ((overlap : ℤ) - overlap) []
        = some cs0 := by
      rw [show ((overlap : ℤ) - overlap) = 0 by ring]
      exact hrun0
    obtain ⟨hre, hnil⟩ := chunkLoop_reassemble text size overlap hws hov hov2
      fuel overlap [] cs0 (by omega) (Or.inl ⟨rfl, rfl⟩) hrun0'
    have hkeep : cs0.filter (fun c => !c.isEmpty) = cs0 := by
      apply List.filter_eq_self.mpr
      intro c hc
      have hcne := hnil c hc
      cases c with
      | nil => exact absurd rfl hcne
      | cons a t => rfl
    rw [← hfil, hkeep, hre]

/-- Witness for the amended C8: `"abcdef"` with `size = 3`, `overlap = 1`
chunks to `["abc", "cde", "ef"]`, and dropping 1 leading character from
each later chunk reassembles `"abcdef"`. -/
theorem chunk_text_reassemble_witness :
    (∀ c ∈ ("abcdef".toList), c.isWhitespace = false) ∧
    chunk_text 10 ("abcdef".toList) 3 1 =
      some ["abc".toList, "cde".toList, "ef".toList] ∧
    reassemble 1 ["abc".toList, "cde".toList, "ef".toList] = "abcdef".toList :=
  ⟨by decide, by decide, chunk_text_reassemble 10 _ 3 1 _ (by decide)
    (by decide) (by decide) (by decide)⟩
